import Mathlib

/-!
# Verification of the Spin operator of CorrelationVector-Go

A shallow embedding of `correlationvector/spin.go` together with the
surrounding collaborator interface (`inferVersion`, `validate`,
`newCorrelationVector`, the process-wide validation flag), which the
repository snapshot does not include and which is therefore modelled
from the specification.

Go strings are modelled as `List Char`, Go's `uint64` arithmetic as
`Nat` arithmetic reduced modulo `2 ^ 64` where the source can overflow,
and Go's `int64` values as `Int`.
-/

namespace CorrelationVector

/-! ## Data model (spin.go lines 13-70) -/

/-- `SpinCounterInterval` is the interval (proportional to time) by which
the counter increments (spin.go lines 14-24). -/
inductive SpinCounterInterval where
  | CoarseInterval
  | FineInterval
deriving DecidableEq

/-- `SpinCounterPeriodicity` configures how frequently the counter wraps
around to zero (spin.go lines 28-42). -/
inductive SpinCounterPeriodicity where
  | NoPeriodicity
  | ShortPeriodicity
  | MediumPeriodicity
  | LongPeriodicity
deriving DecidableEq

/-- `SpinEntropy` is the number of bytes to use for entropy, valid from 0
to 4 (spin.go lines 46-63).  In Go this is an `int`; a negative count
would make `make([]byte, n)` panic, so the embedding uses `Nat`. -/
abbrev SpinEntropy := Nat

def NoEntropy : SpinEntropy := 0
def OneEntropy : SpinEntropy := 1
def TwoEntropy : SpinEntropy := 2
def ThreeEntropy : SpinEntropy := 3
def FourEntropy : SpinEntropy := 4

/-- `SpinParameters` stores parameters used by the Spin operator
(spin.go lines 66-70). -/
structure SpinParameters where
  Interval : SpinCounterInterval
  Periodicity : SpinCounterPeriodicity
  Entropy : Nat
deriving DecidableEq

/-- spin.go line 121. -/
def defaultParameters : SpinParameters :=
  ⟨.CoarseInterval, .ShortPeriodicity, TwoEntropy⟩

/-- spin.go lines 123-132: 24 bits for `CoarseInterval`, 16 for
`FineInterval`; the Go `switch` falls back to 24 for any other value,
which the two-constructor enum cannot produce. -/
def SpinParameters.tickBitsToDrop (sp : SpinParameters) : Nat :=
  match sp.Interval with
  | .CoarseInterval => 24
  | .FineInterval => 16

/-- spin.go lines 134-146: `counterBits` starts at 0, is set by the
`switch` (no case for `NoPeriodicity`, which therefore keeps 0), and the
result is `counterBits + Entropy * 8`. -/
def SpinParameters.totalBits (sp : SpinParameters) : Nat :=
  (match sp.Periodicity with
   | .NoPeriodicity => 0
   | .ShortPeriodicity => 16
   | .MediumPeriodicity => 24
   | .LongPeriodicity => 32) + sp.Entropy * 8

/-! ## The packed spin value (spin.go lines 92-111)

The two ambient inputs of the source — the clock reading
`ticks := time.Now().UnixNano() / 100` (an `int64`) and the buffer of
`parameters.Entropy` random bytes filled by `rand.Read` — are passed in
explicitly, as the specification's design notes suggest. -/

/-- spin.go line 98: `uint64(ticks >> parameters.tickBitsToDrop())`.
Go's `>>` on an `int64` is an arithmetic shift, i.e. floor division by
`2 ^ drop`, and the `uint64` conversion reduces modulo `2 ^ 64`. -/
def shiftedTicks (ticks : Int) (drop : Nat) : Nat :=
  (Int.emod (Int.fdiv ticks (2 ^ drop)) (2 ^ 64)).toNat

/-- spin.go lines 98-101: starting from the shifted ticks, each of the
`parameters.Entropy` iterations shifts the `uint64` accumulator left by
8 (wrapping modulo `2 ^ 64`) and ORs in `entropy[i]`, a byte and hence
below 256. -/
def packValue (parameters : SpinParameters) (ticks : Int)
    (entropy : List Nat) : Nat :=
  (List.range parameters.Entropy).foldl
    (fun value i => ((value <<< 8) % 2 ^ 64) ||| (entropy.getD i 0 % 256))
    (shiftedTicks ticks parameters.tickBitsToDrop)

/-- spin.go lines 106-110: `mask := uint64(1) << totalBits` (a Go shift
by 64 or more yields 0, i.e. `2 ^ totalBits` reduced modulo `2 ^ 64`),
the explicit `totalBits == 64` branch resetting it to 0, then `mask -= 1`
with `uint64` wraparound. -/
def SpinParameters.mask (sp : SpinParameters) : Nat :=
  let m := if sp.totalBits = 64 then 0 else (1 <<< sp.totalBits) % 2 ^ 64
  (m + (2 ^ 64 - 1)) % 2 ^ 64

/-- spin.go line 111: `value &= mask`. -/
def maskedValue (parameters : SpinParameters) (ticks : Int)
    (entropy : List Nat) : Nat :=
  packValue parameters ticks entropy &&& parameters.mask

/-! ## Decimal formatting (spin.go lines 113-116)

`strconv.Itoa` renders a Go `int` (64-bit, two's complement) in decimal,
with a leading `-` for negative arguments and no leading zeros. -/

/-- The decimal digits of a natural number, most significant first. -/
def natToDigits (n : Nat) : List Char :=
  if _h : n < 10 then [Nat.digitChar n]
  else natToDigits (n / 10) ++ [Nat.digitChar (n % 10)]
  termination_by n
  decreasing_by exact Nat.div_lt_self (by omega) (by omega)

/-- Go's conversion `int(value)` of a `uint64` to a signed 64-bit `int`:
two's-complement reinterpretation. -/
def toInt64 (v : Nat) : Int :=
  if v < 2 ^ 63 then (v : Int) else (v : Int) - 2 ^ 64

/-- `strconv.Itoa` on a 64-bit `int`. -/
def itoa (i : Int) : List Char :=
  if i < 0 then '-' :: natToDigits i.natAbs else natToDigits i.toNat

/-- spin.go lines 113-116: `s := strconv.Itoa(int(value))`, and when
`parameters.totalBits() > 32` the field `strconv.Itoa(int(value>>32))`
and a literal `.` are prepended. -/
def spinSuffix (parameters : SpinParameters) (value : Nat) : List Char :=
  let s := itoa (toInt64 value)
  if 32 < parameters.totalBits then
    itoa (toInt64 (value >>> 32)) ++ '.' :: s
  else s

/-! ## External collaborators, modelled from the spec -/

/-- Modelled from the spec: the CV version inferred by the external
collaborator from a base CV string; the repository snapshot does not
include its definition.  The concrete versions play no role here. -/
inductive Version where
  | v1
  | v2
deriving DecidableEq

/-- Modelled from the spec: the opaque error value produced by the
external `inferVersion` and `validate` collaborators, carrying only a
message. -/
structure CVError where
  message : List Char
deriving DecidableEq

/-- Modelled from the spec: the external `CorrelationVector` object —
its full string, its extension counter and its version — owned and
constructed by the external collaborator. -/
structure CorrelationVector where
  value : List Char
  extension : Int
  version : Version
deriving DecidableEq

/-- Modelled from the spec: the external constructor
`newCorrelationVector(string, counter, version) -> CorrelationVector`. -/
def newCorrelationVector (value : List Char) (extension : Int)
    (version : Version) : CorrelationVector :=
  ⟨value, extension, version⟩

/-- Modelled from the spec: the ambient process environment of a call —
the external `inferVersion(string) -> Version | Error` and
`validate(string, Version) -> Error | nil` collaborators, and the
process-wide mutable flag `ValidateCorrelationVectorDuringCreation`
gating validation at creation time. -/
structure SpinEnv where
  inferVersion : List Char → Except CVError Version
  validate : List Char → Version → Option CVError
  ValidateCorrelationVectorDuringCreation : Bool

/-! ## SpinWithParameters (spin.go lines 80-119) -/

/-- spin.go lines 80-119.  The ambient inputs (environment, clock ticks,
random bytes) are explicit arguments; the body otherwise follows the
source line by line: infer the version (propagating its error), validate
when the process-wide flag is set (propagating the validator's error),
pack and mask the spin value, and hand the extended string, a zero
counter and the inferred version to `newCorrelationVector`. -/
def SpinWithParameters (env : SpinEnv) (correlationVector : List Char)
    (parameters : SpinParameters) (ticks : Int) (entropy : List Nat) :
    Except CVError CorrelationVector :=
  match env.inferVersion correlationVector with
  | .error err => .error err
  | .ok version =>
    let spun : Except CVError CorrelationVector :=
      .ok (newCorrelationVector
        (correlationVector ++ '.' ::
          spinSuffix parameters (maskedValue parameters ticks entropy))
        0 version)
    if env.ValidateCorrelationVectorDuringCreation then
      match env.validate correlationVector version with
      | some err => .error err
      | none => spun
    else spun

/-- spin.go lines 74-76. -/
def Spin (env : SpinEnv) (correlationVector : List Char) (ticks : Int)
    (entropy : List Nat) : Except CVError CorrelationVector :=
  SpinWithParameters env correlationVector defaultParameters ticks entropy

/-! ## Decimal fields of a CV segment string -/

/-- The maximal `sep`-free chunks of a character list, in order: the
fields of a CV segment string separated by `.`. -/
def splitOnChar (sep : Char) : List Char → List (List Char)
  | [] => [[]]
  | c :: cs =>
    match splitOnChar sep cs with
    | [] => [[]]
    | f :: fs => if c = sep then [] :: f :: fs else (c :: f) :: fs

/-- Decimal digit characters. -/
def isDigitChar (c : Char) : Bool :=
  ['0', '1', '2', '3', '4', '5', '6', '7', '8', '9'].contains c

/-- Nonzero decimal digit characters. -/
def isNZDigitChar (c : Char) : Bool :=
  ['1', '2', '3', '4', '5', '6', '7', '8', '9'].contains c

/-- A canonical non-negative base-10 integer: a nonempty string of
decimal digits with no leading zeros other than a bare `0` (and in
particular no minus sign). -/
def isCanonicalDecimal : List Char → Bool
  | [] => false
  | c :: cs => (isNZDigitChar c || (c == '0' && cs.isEmpty)) && cs.all isDigitChar

/-! ## Lemmas about decimal digit strings -/

theorem natToDigits_lt10 {n : Nat} (h : n < 10) :
    natToDigits n = [Nat.digitChar n] := by
  rw [natToDigits]
  simp [h]

theorem natToDigits_ge10 {n : Nat} (h : 10 ≤ n) :
    natToDigits n = natToDigits (n / 10) ++ [Nat.digitChar (n % 10)] := by
  rw [natToDigits]
  simp [Nat.not_lt.mpr h]

theorem natToDigits_zero : natToDigits 0 = ['0'] := by
  rw [natToDigits_lt10 (by omega)]
  rfl

theorem isDigitChar_digitChar {d : Nat} (h : d < 10) :
    isDigitChar (Nat.digitChar d) = true := by
  interval_cases d <;> decide

theorem isNZDigitChar_digitChar {d : Nat} (h1 : 1 ≤ d) (h2 : d < 10) :
    isNZDigitChar (Nat.digitChar d) = true := by
  interval_cases d <;> decide

theorem isDigitChar_of_isNZDigitChar {c : Char} (h : isNZDigitChar c = true) :
    isDigitChar c = true := by
  simp only [isNZDigitChar, List.contains, List.elem_eq_mem, decide_eq_true_eq] at h
  fin_cases h <;> decide

/-- Every positive number prints as a nonzero digit followed by digits. -/
theorem natToDigits_shape {n : Nat} (h : 1 ≤ n) :
    ∃ c cs, natToDigits n = c :: cs ∧ isNZDigitChar c = true ∧
      cs.all isDigitChar = true := by
  induction n using Nat.strong_induction_on with
  | _ n ih =>
    by_cases hlt : n < 10
    · exact ⟨Nat.digitChar n, [], natToDigits_lt10 hlt,
        isNZDigitChar_digitChar h hlt, rfl⟩
    · have h10 : 10 ≤ n := by omega
      have hdiv : 1 ≤ n / 10 := (Nat.one_le_div_iff (by omega)).mpr h10
      obtain ⟨c, cs, heq, hc, hcs⟩ :=
        ih (n / 10) (Nat.div_lt_self (by omega) (by omega)) hdiv
      refine ⟨c, cs ++ [Nat.digitChar (n % 10)], ?_, hc, ?_⟩
      · rw [natToDigits_ge10 h10, heq]
        rfl
      · simp only [List.all_append, hcs, Bool.true_and, List.all_cons,
          List.all_nil, Bool.and_true]
        exact isDigitChar_digitChar (Nat.mod_lt _ (by omega))

theorem natToDigits_canonical (n : Nat) :
    isCanonicalDecimal (natToDigits n) = true := by
  rcases Nat.eq_zero_or_pos n with h | h
  · subst h
    rw [natToDigits_zero]
    decide
  · obtain ⟨c, cs, heq, hc, hcs⟩ := natToDigits_shape h
    rw [heq]
    simp [isCanonicalDecimal, hc, hcs]

theorem natToDigits_all_digits (n : Nat) :
    (natToDigits n).all isDigitChar = true := by
  rcases Nat.eq_zero_or_pos n with h | h
  · subst h
    rw [natToDigits_zero]
    decide
  · obtain ⟨c, cs, heq, hc, hcs⟩ := natToDigits_shape h
    rw [heq]
    simp [isDigitChar_of_isNZDigitChar hc, hcs]

theorem dot_not_mem_natToDigits (n : Nat) : '.' ∉ natToDigits n := by
  intro hmem
  have := (List.all_eq_true.mp (natToDigits_all_digits n)) _ hmem
  simp [isDigitChar] at this

theorem itoa_of_nonneg {i : Int} (h : 0 ≤ i) : itoa i = natToDigits i.toNat := by
  simp [itoa, Int.not_lt.mpr h]

theorem toInt64_of_lt {v : Nat} (h : v < 2 ^ 63) : toInt64 v = (v : Int) := by
  rw [toInt64, if_pos h]

theorem itoa_toInt64_of_lt {v : Nat} (h : v < 2 ^ 63) :
    itoa (toInt64 v) = natToDigits v := by
  rw [toInt64_of_lt h, itoa_of_nonneg (Int.natCast_nonneg v), Int.toNat_natCast]

theorem dot_not_mem_itoa (i : Int) : '.' ∉ itoa i := by
  unfold itoa
  split
  · intro hmem
    rcases List.mem_cons.mp hmem with h | h
    · exact absurd h (by decide)
    · exact dot_not_mem_natToDigits _ h
  · exact dot_not_mem_natToDigits _

/-! ## Lemmas about field splitting -/

theorem splitOnChar_shape (sep : Char) (l : List Char) :
    ∃ f fs, splitOnChar sep l = f :: fs := by
  induction l with
  | nil => exact ⟨[], [], rfl⟩
  | cons c cs ih =>
    obtain ⟨f, fs, heq⟩ := ih
    rw [splitOnChar, heq]
    by_cases h : c = sep
    · exact ⟨[], f :: fs, by simp [h]⟩
    · exact ⟨c :: f, fs, by simp [h]⟩

theorem splitOnChar_of_not_mem {sep : Char} {l : List Char} (h : sep ∉ l) :
    splitOnChar sep l = [l] := by
  induction l with
  | nil => rfl
  | cons c cs ih =>
    have hc : ¬ c = sep := fun hcs => h (hcs ▸ List.mem_cons_self c cs)
    have hcs : sep ∉ cs := fun hm => h (List.mem_cons_of_mem _ hm)
    rw [splitOnChar, ih hcs]
    simp [hc]

theorem splitOnChar_append {sep : Char} {l : List Char} (r : List Char)
    (h : sep ∉ l) :
    splitOnChar sep (l ++ sep :: r) = l :: splitOnChar sep r := by
  induction l with
  | nil =>
    obtain ⟨f, fs, heq⟩ := splitOnChar_shape sep r
    rw [List.nil_append, splitOnChar, heq]
    simp [heq]
  | cons c cs ih =>
    have hc : ¬ c = sep := fun hcs => h (hcs ▸ List.mem_cons_self c cs)
    have hcs : sep ∉ cs := fun hm => h (List.mem_cons_of_mem _ hm)
    rw [List.cons_append, splitOnChar, ih hcs]
    simp [hc]

/-- The fields of the appended spin segment: the two `Itoa` renderings
when `totalBits > 32`, the single rendering otherwise. -/
theorem spinSuffix_fields (sp : SpinParameters) (v : Nat) :
    splitOnChar '.' (spinSuffix sp v) =
      if 32 < sp.totalBits then
        [itoa (toInt64 (v >>> 32)), itoa (toInt64 v)]
      else [itoa (toInt64 v)] := by
  rw [spinSuffix]
  by_cases h : 32 < sp.totalBits
  · simp only [h, if_true]
    rw [splitOnChar_append _ (dot_not_mem_itoa _),
      splitOnChar_of_not_mem (dot_not_mem_itoa _)]
  · simp only [h, if_false]
    exact splitOnChar_of_not_mem (dot_not_mem_itoa _)

/-! ## Lemmas about packing and masking -/

theorem shiftedTicks_lt (ticks : Int) (drop : Nat) :
    shiftedTicks ticks drop < 2 ^ 64 := by
  rw [shiftedTicks]
  have h1 : 0 ≤ Int.emod (Int.fdiv ticks (2 ^ drop)) (2 ^ 64) :=
    Int.emod_nonneg _ (by norm_num)
  have h2 : Int.emod (Int.fdiv ticks (2 ^ drop)) (2 ^ 64) < 2 ^ 64 :=
    Int.emod_lt_of_pos _ (by norm_num)
  have h64 : ((2 : Int) ^ 64) = 18446744073709551616 := by norm_num
  have h64n : ((2 : Nat) ^ 64) = 18446744073709551616 := by norm_num
  rw [h64] at h1 h2 ⊢
  rw [h64n]
  omega

theorem packFold_lt (entropy : List Nat) (l : List Nat) (v : Nat)
    (hv : v < 2 ^ 64) :
    l.foldl (fun value i => ((value <<< 8) % 2 ^ 64) ||| (entropy.getD i 0 % 256))
      v < 2 ^ 64 := by
  induction l generalizing v with
  | nil => exact hv
  | cons i is ih =>
    refine ih _ (Nat.or_lt_two_pow (Nat.mod_lt _ (by norm_num)) ?_)
    exact lt_of_lt_of_le (Nat.mod_lt _ (by norm_num)) (by norm_num)

theorem packValue_lt (sp : SpinParameters) (ticks : Int) (entropy : List Nat) :
    packValue sp ticks entropy < 2 ^ 64 :=
  packFold_lt entropy _ _ (shiftedTicks_lt ticks sp.tickBitsToDrop)

/-- For `totalBits ≤ 64` the computed bitmask is the low `totalBits`
mask, the `totalBits == 64` edge case included. -/
theorem mask_eq_of_le {sp : SpinParameters} (h : sp.totalBits ≤ 64) :
    sp.mask = 2 ^ sp.totalBits - 1 := by
  rw [SpinParameters.mask]
  by_cases h64 : sp.totalBits = 64
  · rw [h64]
    norm_num
  · have hlt : sp.totalBits < 64 := by omega
    have hple : (2 : Nat) ^ sp.totalBits < 2 ^ 64 :=
      Nat.pow_lt_pow_right (by omega) hlt
    have h1 : (1 : Nat) ≤ 2 ^ sp.totalBits := Nat.one_le_two_pow
    simp only [h64, if_false, Nat.shiftLeft_eq, one_mul]
    rw [Nat.mod_eq_of_lt hple]
    have hsum : 2 ^ sp.totalBits + (2 ^ 64 - 1) =
        (2 ^ sp.totalBits - 1) + 2 ^ 64 := by omega
    rw [hsum, Nat.add_mod_right, Nat.mod_eq_of_lt (by omega)]

theorem mask_lt (sp : SpinParameters) : sp.mask < 2 ^ 64 :=
  Nat.mod_lt _ (by norm_num)

theorem maskedValue_le_mask (sp : SpinParameters) (ticks : Int)
    (entropy : List Nat) : maskedValue sp ticks entropy ≤ sp.mask :=
  Nat.and_le_right

theorem maskedValue_lt_64 (sp : SpinParameters) (ticks : Int)
    (entropy : List Nat) : maskedValue sp ticks entropy < 2 ^ 64 :=
  lt_of_le_of_lt (maskedValue_le_mask sp ticks entropy) (mask_lt sp)

/-- The masked value always fits in `totalBits` bits. -/
theorem maskedValue_lt_two_pow (sp : SpinParameters) (ticks : Int)
    (entropy : List Nat) :
    maskedValue sp ticks entropy < 2 ^ sp.totalBits := by
  by_cases h : sp.totalBits ≤ 64
  · have h1 : (1 : Nat) ≤ 2 ^ sp.totalBits := Nat.one_le_two_pow
    have := maskedValue_le_mask sp ticks entropy
    rw [mask_eq_of_le h] at this
    omega
  · exact lt_of_lt_of_le (maskedValue_lt_64 sp ticks entropy)
      (Nat.pow_le_pow_right (by omega) (by omega))

/-- For `totalBits ≤ 64`, masking is reduction modulo `2 ^ totalBits`. -/
theorem maskedValue_eq_mod {sp : SpinParameters} (h : sp.totalBits ≤ 64)
    (ticks : Int) (entropy : List Nat) :
    maskedValue sp ticks entropy =
      packValue sp ticks entropy % 2 ^ sp.totalBits := by
  rw [maskedValue, mask_eq_of_le h, Nat.and_pow_two_sub_one_eq_mod]

/-- Valid parameters keep `totalBits` at 64 or below. -/
theorem totalBits_le_64 {sp : SpinParameters} (hE : sp.Entropy ≤ 4) :
    sp.totalBits ≤ 64 := by
  cases hp : sp.Periodicity <;>
    simp only [SpinParameters.totalBits, hp] <;> omega

/-- Valid parameters other than long periodicity with four entropy bytes
keep `totalBits` at 56 or below. -/
theorem totalBits_le_56 {sp : SpinParameters} (hE : sp.Entropy ≤ 4)
    (h64 : sp.totalBits ≠ 64) : sp.totalBits ≤ 56 := by
  cases hp : sp.Periodicity <;>
    simp only [SpinParameters.totalBits, hp] at h64 ⊢ <;> omega

theorem maskedValue_lt_63 {sp : SpinParameters} (hE : sp.Entropy ≤ 4)
    (h64 : sp.totalBits ≠ 64) (ticks : Int) (entropy : List Nat) :
    maskedValue sp ticks entropy < 2 ^ 63 :=
  lt_of_lt_of_le (maskedValue_lt_two_pow sp ticks entropy)
    (Nat.pow_le_pow_right (by omega) (by
      have := totalBits_le_56 hE h64
      omega))

/-! ## Lemmas about the result of SpinWithParameters -/

/-- A successful spin determines the new vector: the version was
inferred, and the vector is the base extended with the spin segment, a
zero counter and that version. -/
theorem spin_ok_inv {env : SpinEnv} {base : List Char}
    {sp : SpinParameters} {ticks : Int} {entropy : List Nat}
    {cv : CorrelationVector}
    (h : SpinWithParameters env base sp ticks entropy = .ok cv) :
    ∃ version, env.inferVersion base = .ok version ∧
      cv = newCorrelationVector
        (base ++ '.' :: spinSuffix sp (maskedValue sp ticks entropy))
        0 version := by
  rw [SpinWithParameters] at h
  cases hv : env.inferVersion base with
  | error err => rw [hv] at h; exact absurd h (by simp)
  | ok version =>
    rw [hv] at h
    simp only at h
    refine ⟨version, rfl, ?_⟩
    cases hflag : env.ValidateCorrelationVectorDuringCreation with
    | true =>
      rw [hflag] at h
      simp only [if_true] at h
      cases hval : env.validate base version with
      | some err => rw [hval] at h; simp at h
      | none => rw [hval] at h; simp at h; exact h.symm
    | false =>
      rw [hflag] at h
      simp at h
      exact h.symm

/-- A spin succeeds whenever the version is inferable and validation is
off or passes, and then returns exactly the spun vector. -/
theorem spin_ok {env : SpinEnv} {base : List Char} {version : Version}
    (sp : SpinParameters) (ticks : Int) (entropy : List Nat)
    (hv : env.inferVersion base = .ok version)
    (hval : env.ValidateCorrelationVectorDuringCreation = false ∨
      env.validate base version = none) :
    SpinWithParameters env base sp ticks entropy =
      .ok (newCorrelationVector
        (base ++ '.' :: spinSuffix sp (maskedValue sp ticks entropy))
        0 version) := by
  rw [SpinWithParameters, hv]
  cases hflag : env.ValidateCorrelationVectorDuringCreation with
  | false => simp
  | true =>
    have hnone : env.validate base version = none := by
      rcases hval with h | h
      · rw [hflag] at h; cases h
      · exact h
    simp [hnone]

/-! ## Claim theorems -/

/-- C1 counterexample: with medium periodicity and two entropy bytes
(`totalBits = 40`), ticks `2 ^ 40` and zero entropy bytes, the masked
value is `2 ^ 32` and the appended segment is `1.4294967296`, not the
`1.0` that the high-32/low-32 split of the claim would give: the second
field is not `value mod 2 ^ 32`. -/
theorem spin_low_field_not_mod32 :
    spinSuffix ⟨.CoarseInterval, .MediumPeriodicity, TwoEntropy⟩
        (maskedValue ⟨.CoarseInterval, .MediumPeriodicity, TwoEntropy⟩ (2 ^ 40) [0, 0]) ≠
      natToDigits
          (maskedValue ⟨.CoarseInterval, .MediumPeriodicity, TwoEntropy⟩ (2 ^ 40) [0, 0] >>> 32) ++
        '.' :: natToDigits
          (maskedValue ⟨.CoarseInterval, .MediumPeriodicity, TwoEntropy⟩ (2 ^ 40) [0, 0] % 2 ^ 32) := by
  have hv : maskedValue ⟨.CoarseInterval, .MediumPeriodicity, TwoEntropy⟩ (2 ^ 40) [0, 0] =
      4294967296 := by decide
  rw [hv]
  have h1 : (4294967296 : Nat) >>> 32 = 1 := by decide
  have h2 : (4294967296 : Nat) % 2 ^ 32 = 0 := by decide
  rw [h1, h2]
  simp [spinSuffix, itoa, toInt64, natToDigits, Nat.digitChar, SpinParameters.totalBits,
    TwoEntropy]

/-- C1 (amended): when `totalBits > 32` the appended segment is exactly
two fields joined by a literal `.`; the first is the decimal rendering
of the high 32 bits `value >> 32`, but the second is the decimal
rendering of the full masked value converted to a signed 64-bit integer
(`strconv.Itoa(int(value))`), not of `value mod 2 ^ 32`; it equals the
decimal rendering of the full masked value whenever that value is below
`2 ^ 63`. -/
theorem spin_two_fields (sp : SpinParameters) (ticks : Int) (entropy : List Nat)
    (h : 32 < sp.totalBits) :
    splitOnChar '.' (spinSuffix sp (maskedValue sp ticks entropy)) =
      [natToDigits (maskedValue sp ticks entropy >>> 32),
        itoa (toInt64 (maskedValue sp ticks entropy))] ∧
    (maskedValue sp ticks entropy < 2 ^ 63 →
      itoa (toInt64 (maskedValue sp ticks entropy)) =
        natToDigits (maskedValue sp ticks entropy)) := by
  constructor
  · rw [spinSuffix_fields, if_pos h]
    have h1 : maskedValue sp ticks entropy < 2 ^ 32 * 2 ^ 32 := by
      have h2 := maskedValue_lt_64 sp ticks entropy
      have h3 : (2 : Nat) ^ 32 * 2 ^ 32 = 2 ^ 64 := by norm_num
      omega
    have hsh : maskedValue sp ticks entropy >>> 32 < 2 ^ 63 := by
      rw [Nat.shiftRight_eq_div_pow]
      exact lt_of_lt_of_le (Nat.div_lt_of_lt_mul h1) (by norm_num)
    rw [itoa_toInt64_of_lt hsh]
  · exact fun hlt => itoa_toInt64_of_lt hlt

/-- C1 witness: the amended statement at medium periodicity, two entropy
bytes, ticks `2 ^ 40` and zero entropy bytes. -/
theorem spin_two_fields_witness :
    splitOnChar '.' (spinSuffix ⟨.CoarseInterval, .MediumPeriodicity, TwoEntropy⟩
        (maskedValue ⟨.CoarseInterval, .MediumPeriodicity, TwoEntropy⟩ (2 ^ 40) [0, 0])) =
      [natToDigits
          (maskedValue ⟨.CoarseInterval, .MediumPeriodicity, TwoEntropy⟩ (2 ^ 40) [0, 0] >>> 32),
        itoa (toInt64
          (maskedValue ⟨.CoarseInterval, .MediumPeriodicity, TwoEntropy⟩ (2 ^ 40) [0, 0]))] ∧
    (maskedValue ⟨.CoarseInterval, .MediumPeriodicity, TwoEntropy⟩ (2 ^ 40) [0, 0] < 2 ^ 63 →
      itoa (toInt64 (maskedValue ⟨.CoarseInterval, .MediumPeriodicity, TwoEntropy⟩ (2 ^ 40) [0, 0])) =
        natToDigits (maskedValue ⟨.CoarseInterval, .MediumPeriodicity, TwoEntropy⟩ (2 ^ 40) [0, 0])) :=
  spin_two_fields ⟨.CoarseInterval, .MediumPeriodicity, TwoEntropy⟩ (2 ^ 40) [0, 0] (by decide)

/-- C2: a successful spin returns the base CV extended with `.` and the
spin segment, and that segment has exactly one `.`-separated field when
`totalBits ≤ 32` and exactly two when `totalBits > 32`. -/
theorem spin_field_count (env : SpinEnv) (base : List Char) (sp : SpinParameters)
    (ticks : Int) (entropy : List Nat) (cv : CorrelationVector)
    (h : SpinWithParameters env base sp ticks entropy = .ok cv) :
    cv.value = base ++ '.' :: spinSuffix sp (maskedValue sp ticks entropy) ∧
    (sp.totalBits ≤ 32 →
      (splitOnChar '.' (spinSuffix sp (maskedValue sp ticks entropy))).length = 1) ∧
    (32 < sp.totalBits →
      (splitOnChar '.' (spinSuffix sp (maskedValue sp ticks entropy))).length = 2) := by
  obtain ⟨version, hv, hcv⟩ := spin_ok_inv h
  refine ⟨by rw [hcv]; rfl, fun hle => ?_, fun hlt => ?_⟩
  · rw [spinSuffix_fields, if_neg (by omega)]
    rfl
  · rw [spinSuffix_fields, if_pos hlt]
    rfl

/-- C2 witness: the default parameters on base `a` with a trivial
environment. -/
theorem spin_field_count_witness :
    (newCorrelationVector (['a'] ++ '.' :: spinSuffix defaultParameters
        (maskedValue defaultParameters 0 [])) 0 .v1).value =
      ['a'] ++ '.' :: spinSuffix defaultParameters (maskedValue defaultParameters 0 []) ∧
    (defaultParameters.totalBits ≤ 32 →
      (splitOnChar '.' (spinSuffix defaultParameters
        (maskedValue defaultParameters 0 []))).length = 1) ∧
    (32 < defaultParameters.totalBits →
      (splitOnChar '.' (spinSuffix defaultParameters
        (maskedValue defaultParameters 0 []))).length = 2) :=
  spin_field_count ⟨fun _ => .ok .v1, fun _ _ => none, false⟩ ['a'] defaultParameters 0 []
    (newCorrelationVector (['a'] ++ '.' :: spinSuffix defaultParameters
      (maskedValue defaultParameters 0 [])) 0 .v1) rfl

/-- C3 counterexample: with long periodicity and four entropy bytes
(`totalBits = 64`), ticks `2 ^ 55` and zero entropy bytes, the masked
value is `2 ^ 63`, `int(value)` is negative, and the second field of the
segment is `-9223372036854775808`: it contains a minus sign and is not a
canonical non-negative decimal. -/
theorem spin_field_minus_sign :
    isCanonicalDecimal ((splitOnChar '.' (spinSuffix ⟨.CoarseInterval, .LongPeriodicity, FourEntropy⟩
        (maskedValue ⟨.CoarseInterval, .LongPeriodicity, FourEntropy⟩ (2 ^ 55) [0, 0, 0, 0]))).getD 1 []) =
      false ∧
    '-' ∈ (splitOnChar '.' (spinSuffix ⟨.CoarseInterval, .LongPeriodicity, FourEntropy⟩
        (maskedValue ⟨.CoarseInterval, .LongPeriodicity, FourEntropy⟩ (2 ^ 55) [0, 0, 0, 0]))).getD 1 [] := by
  have hv : maskedValue ⟨.CoarseInterval, .LongPeriodicity, FourEntropy⟩ (2 ^ 55) [0, 0, 0, 0] =
      9223372036854775808 := by decide
  rw [hv]
  have hs : spinSuffix ⟨.CoarseInterval, .LongPeriodicity, FourEntropy⟩ 9223372036854775808 =
      "2147483648.-9223372036854775808".toList := by
    simp [spinSuffix, itoa, toInt64, natToDigits, Nat.digitChar, SpinParameters.totalBits,
      FourEntropy]
  rw [hs]
  decide

/-- C3 (amended): for valid parameters (`Entropy ≤ 4`) whose `totalBits`
is not 64, every field of the appended spin segment is a canonical
non-negative base-10 integer — no minus sign and no leading zeros other
than a bare `0`.  When `totalBits = 64` the final field is rendered as a
signed 64-bit integer and can carry a minus sign. -/
theorem spin_fields_canonical (sp : SpinParameters) (ticks : Int) (entropy : List Nat)
    (hE : sp.Entropy ≤ 4) (h64 : sp.totalBits ≠ 64) :
    ∀ f ∈ splitOnChar '.' (spinSuffix sp (maskedValue sp ticks entropy)),
      isCanonicalDecimal f = true := by
  intro f hf
  have hlt : maskedValue sp ticks entropy < 2 ^ 63 := maskedValue_lt_63 hE h64 ticks entropy
  rw [spinSuffix_fields] at hf
  by_cases h32 : 32 < sp.totalBits
  · rw [if_pos h32, itoa_toInt64_of_lt hlt] at hf
    have hsh : maskedValue sp ticks entropy >>> 32 < 2 ^ 63 := by
      rw [Nat.shiftRight_eq_div_pow]
      exact lt_of_le_of_lt (Nat.div_le_self _ _) hlt
    rw [itoa_toInt64_of_lt hsh] at hf
    simp only [List.mem_cons, List.not_mem_nil, or_false] at hf
    rcases hf with hf | hf <;> exact hf ▸ natToDigits_canonical _
  · rw [if_neg h32, itoa_toInt64_of_lt hlt] at hf
    simp only [List.mem_singleton] at hf
    exact hf ▸ natToDigits_canonical _

/-- C3 witness: the single field of the default parameters at ticks 0 is
canonical. -/
theorem spin_fields_canonical_witness :
    isCanonicalDecimal (itoa (toInt64 (maskedValue defaultParameters 0 []))) = true :=
  spin_fields_canonical defaultParameters 0 [] (by decide) (by decide) _ (by
    rw [spinSuffix_fields, if_neg (by decide)]
    exact List.mem_singleton.mpr rfl)

/-- C4: with long periodicity and four entropy bytes `totalBits` is 64,
the mask computed through the explicit `totalBits == 64` branch is all
ones, and masking leaves the packed value unchanged — no 64-bit shift by
64 is involved. -/
theorem spin_totalBits_64_no_shift (i : SpinCounterInterval) (ticks : Int)
    (entropy : List Nat) :
    (SpinParameters.mk i .LongPeriodicity FourEntropy).totalBits = 64 ∧
    (SpinParameters.mk i .LongPeriodicity FourEntropy).mask = 2 ^ 64 - 1 ∧
    maskedValue ⟨i, .LongPeriodicity, FourEntropy⟩ ticks entropy =
      packValue ⟨i, .LongPeriodicity, FourEntropy⟩ ticks entropy := by
  have ht : (SpinParameters.mk i .LongPeriodicity FourEntropy).totalBits = 64 := rfl
  have hm := mask_eq_of_le (le_of_eq ht)
  rw [ht] at hm
  refine ⟨ht, hm, ?_⟩
  rw [maskedValue, hm, Nat.and_pow_two_sub_one_eq_mod,
    Nat.mod_eq_of_lt (packValue_lt _ _ _)]

/-- C5: for valid parameters the masked value is strictly below
`2 ^ totalBits` — it never needs more than `periodicityBits + 8*Entropy`
bits — and the appended segment never has more than two fields. -/
theorem spin_bit_width_bound (sp : SpinParameters) (ticks : Int) (entropy : List Nat)
    (hE : sp.Entropy ≤ 4) :
    maskedValue sp ticks entropy < 2 ^ sp.totalBits ∧
    (splitOnChar '.' (spinSuffix sp (maskedValue sp ticks entropy))).length ≤ 2 := by
  refine ⟨maskedValue_lt_two_pow sp ticks entropy, ?_⟩
  rw [spinSuffix_fields]
  split <;> simp

/-- C5 witness: the bound at the default parameters, ticks 0 and no
entropy bytes. -/
theorem spin_bit_width_bound_witness :
    maskedValue defaultParameters 0 [] < 2 ^ defaultParameters.totalBits ∧
    (splitOnChar '.' (spinSuffix defaultParameters
      (maskedValue defaultParameters 0 []))).length ≤ 2 :=
  spin_bit_width_bound defaultParameters 0 [] (by decide)

/-- C6: the spin operation is deterministic in its explicit inputs — two
successful runs from the same base CV, parameters, tick count and
entropy byte sequence produce the same CV string (even across different
environments). -/
theorem spin_deterministic (env1 env2 : SpinEnv) (base : List Char)
    (sp : SpinParameters) (ticks : Int) (entropy : List Nat)
    (cv1 cv2 : CorrelationVector)
    (h1 : SpinWithParameters env1 base sp ticks entropy = .ok cv1)
    (h2 : SpinWithParameters env2 base sp ticks entropy = .ok cv2) :
    cv1.value = cv2.value := by
  obtain ⟨w1, _, hc1⟩ := spin_ok_inv h1
  obtain ⟨w2, _, hc2⟩ := spin_ok_inv h2
  rw [hc1, hc2]
  rfl

/-- C6 witness: two runs at the default parameters, one with validation
off and one with validation on, agree on the produced string. -/
theorem spin_deterministic_witness :
    (newCorrelationVector (['a'] ++ '.' :: spinSuffix defaultParameters
      (maskedValue defaultParameters 0 [])) 0 .v1).value =
    (newCorrelationVector (['a'] ++ '.' :: spinSuffix defaultParameters
      (maskedValue defaultParameters 0 [])) 0 .v2).value :=
  spin_deterministic ⟨fun _ => .ok .v1, fun _ _ => none, false⟩
    ⟨fun _ => .ok .v2, fun _ _ => none, true⟩ ['a'] defaultParameters 0 []
    (newCorrelationVector (['a'] ++ '.' :: spinSuffix defaultParameters
      (maskedValue defaultParameters 0 [])) 0 .v1)
    (newCorrelationVector (['a'] ++ '.' :: spinSuffix defaultParameters
      (maskedValue defaultParameters 0 [])) 0 .v2)
    rfl rfl

/-- C7: validation is gated solely by the process-wide flag.  For a base
CV whose version is inferable but which the validator rejects: with the
flag off the spin succeeds — and its result does not depend on the
validator at all — while with the flag on it returns exactly the
validator's error and no vector. -/
theorem spin_validation_gating (env : SpinEnv)
    (v' : List Char → Version → Option CVError) (base : List Char)
    (sp : SpinParameters) (ticks : Int) (entropy : List Nat)
    (version : Version) (err : CVError)
    (hv : env.inferVersion base = .ok version)
    (hval : env.validate base version = some err) :
    (env.ValidateCorrelationVectorDuringCreation = false →
      SpinWithParameters env base sp ticks entropy =
        .ok (newCorrelationVector
          (base ++ '.' :: spinSuffix sp (maskedValue sp ticks entropy)) 0 version) ∧
      SpinWithParameters { env with validate := v' } base sp ticks entropy =
        SpinWithParameters env base sp ticks entropy) ∧
    (env.ValidateCorrelationVectorDuringCreation = true →
      SpinWithParameters env base sp ticks entropy = .error err) := by
  constructor
  · intro hflag
    have he : SpinWithParameters env base sp ticks entropy =
        .ok (newCorrelationVector
          (base ++ '.' :: spinSuffix sp (maskedValue sp ticks entropy)) 0 version) :=
      spin_ok sp ticks entropy hv (Or.inl hflag)
    have he' : SpinWithParameters { env with validate := v' } base sp ticks entropy =
        .ok (newCorrelationVector
          (base ++ '.' :: spinSuffix sp (maskedValue sp ticks entropy)) 0 version) :=
      spin_ok sp ticks entropy hv (Or.inl hflag)
    exact ⟨he, he'.trans he.symm⟩
  · intro hflag
    rw [SpinWithParameters, hv]
    simp [hflag, hval]

/-- C7 witness: with validation off, a validator that always rejects is
ignored and the spin succeeds. -/
theorem spin_validation_gating_witness :
    SpinWithParameters ⟨fun _ => .ok .v1, fun _ _ => some ⟨['b']⟩, false⟩ ['a']
        defaultParameters 0 [] =
      .ok (newCorrelationVector (['a'] ++ '.' :: spinSuffix defaultParameters
        (maskedValue defaultParameters 0 [])) 0 .v1) :=
  ((spin_validation_gating ⟨fun _ => .ok .v1, fun _ _ => some ⟨['b']⟩, false⟩
    (fun _ _ => none) ['a'] defaultParameters 0 [] .v1 ⟨['b']⟩ rfl rfl).1 rfl).1

/-- C8: the spin operation has exactly two error paths and is atomic.
When version inference fails its error is returned unchanged for every
tick count and entropy sequence (the clock and random source are never
consulted); when it succeeds, the result is the validator's error (flag
on and validation failing) or the complete spun vector (flag off, or
validation passing) — never a partial result. -/
theorem spin_error_paths (env : SpinEnv) (base : List Char) (sp : SpinParameters)
    (ticks : Int) (entropy : List Nat) :
    (∀ err, env.inferVersion base = .error err →
      ∀ (ticks' : Int) (entropy' : List Nat),
        SpinWithParameters env base sp ticks' entropy' = .error err) ∧
    (∀ version, env.inferVersion base = .ok version →
      (env.ValidateCorrelationVectorDuringCreation = true →
        (∀ err, env.validate base version = some err →
          SpinWithParameters env base sp ticks entropy = .error err) ∧
        (env.validate base version = none →
          SpinWithParameters env base sp ticks entropy =
            .ok (newCorrelationVector
              (base ++ '.' :: spinSuffix sp (maskedValue sp ticks entropy)) 0 version))) ∧
      (env.ValidateCorrelationVectorDuringCreation = false →
        SpinWithParameters env base sp ticks entropy =
          .ok (newCorrelationVector
            (base ++ '.' :: spinSuffix sp (maskedValue sp ticks entropy)) 0 version))) := by
  refine ⟨fun err herr ticks' entropy' => ?_, fun version hv => ?_⟩
  · rw [SpinWithParameters, herr]
  · refine ⟨fun hflag => ⟨fun err herr => ?_,
      fun hnone => spin_ok sp ticks entropy hv (Or.inr hnone)⟩,
      fun hflag => spin_ok sp ticks entropy hv (Or.inl hflag)⟩
    rw [SpinWithParameters, hv]
    simp [hflag, herr]

/-- C8 witness: a failing version inference aborts with that error at a
tick count and entropy sequence different from the ones the theorem was
applied at. -/
theorem spin_error_paths_witness :
    SpinWithParameters ⟨fun _ => .error ⟨['x']⟩, fun _ _ => none, false⟩ ['a']
      defaultParameters 1 [5] = .error ⟨['x']⟩ :=
  (spin_error_paths ⟨fun _ => .error ⟨['x']⟩, fun _ _ => none, false⟩ ['a']
    defaultParameters 0 []).1 ⟨['x']⟩ rfl 1 [5]

/-- C9 counterexample: with the claim's own inputs — shifted ticks 5 and
entropy bytes 1 and 2 — the packed value `(5<<8|1)<<8|2` is 327938, not
the 328706 the claim states. -/
theorem spin_example_packed_ne :
    packValue ⟨.CoarseInterval, .ShortPeriodicity, TwoEntropy⟩ (5 * 2 ^ 24) [1, 2] ≠
      328706 := by
  decide

/-- C9 (amended): with parameters coarse/short/two-entropy, ticks
`5 * 2 ^ 24` (shifted tick value 5) and entropy bytes 1 and 2, the
packed value `(5<<8|1)<<8|2` equals 327938, masking with
`totalBits = 32` leaves it unchanged, and spinning `abc.1` produces the
CV string `abc.1.327938`. -/
theorem spin_example_abc1 (env : SpinEnv) (version : Version)
    (hv : env.inferVersion "abc.1".toList = .ok version)
    (hval : env.ValidateCorrelationVectorDuringCreation = false ∨
      env.validate "abc.1".toList version = none) :
    shiftedTicks (5 * 2 ^ 24) 24 = 5 ∧
    packValue ⟨.CoarseInterval, .ShortPeriodicity, TwoEntropy⟩ (5 * 2 ^ 24) [1, 2] =
      327938 ∧
    maskedValue ⟨.CoarseInterval, .ShortPeriodicity, TwoEntropy⟩ (5 * 2 ^ 24) [1, 2] =
      327938 ∧
    (SpinParameters.mk .CoarseInterval .ShortPeriodicity TwoEntropy).totalBits = 32 ∧
    SpinWithParameters env "abc.1".toList
        ⟨.CoarseInterval, .ShortPeriodicity, TwoEntropy⟩ (5 * 2 ^ 24) [1, 2] =
      .ok (newCorrelationVector "abc.1.327938".toList 0 version) := by
  refine ⟨by decide, by decide, by decide, by decide, ?_⟩
  rw [spin_ok _ _ _ hv hval]
  have hm : maskedValue ⟨.CoarseInterval, .ShortPeriodicity, TwoEntropy⟩ (5 * 2 ^ 24) [1, 2] =
      327938 := by decide
  rw [hm]
  have hs : spinSuffix ⟨.CoarseInterval, .ShortPeriodicity, TwoEntropy⟩ 327938 =
      "327938".toList := by
    simp [spinSuffix, itoa, toInt64, natToDigits, Nat.digitChar, SpinParameters.totalBits,
      TwoEntropy]
  rw [hs]
  rfl

/-- C9 witness: the amended example in a trivial environment. -/
theorem spin_example_abc1_witness :
    shiftedTicks (5 * 2 ^ 24) 24 = 5 ∧
    packValue ⟨.CoarseInterval, .ShortPeriodicity, TwoEntropy⟩ (5 * 2 ^ 24) [1, 2] =
      327938 ∧
    maskedValue ⟨.CoarseInterval, .ShortPeriodicity, TwoEntropy⟩ (5 * 2 ^ 24) [1, 2] =
      327938 ∧
    (SpinParameters.mk .CoarseInterval .ShortPeriodicity TwoEntropy).totalBits = 32 ∧
    SpinWithParameters ⟨fun _ => .ok .v1, fun _ _ => none, false⟩ "abc.1".toList
        ⟨.CoarseInterval, .ShortPeriodicity, TwoEntropy⟩ (5 * 2 ^ 24) [1, 2] =
      .ok (newCorrelationVector "abc.1.327938".toList 0 .v1) :=
  spin_example_abc1 ⟨fun _ => .ok .v1, fun _ _ => none, false⟩ .v1 rfl (Or.inl rfl)

/-- C10: with no periodicity and no entropy, `totalBits` is 0 and the
mask is 0, so every successful spin appends exactly the segment `0`: the
result is the base CV followed by `.0`, for every tick count and every
entropy byte sequence. -/
theorem spin_zero_segment (i : SpinCounterInterval) (env : SpinEnv)
    (base : List Char) (ticks : Int) (entropy : List Nat)
    (cv : CorrelationVector)
    (h : SpinWithParameters env base ⟨i, .NoPeriodicity, NoEntropy⟩ ticks entropy =
      .ok cv) :
    (SpinParameters.mk i .NoPeriodicity NoEntropy).totalBits = 0 ∧
    (SpinParameters.mk i .NoPeriodicity NoEntropy).mask = 0 ∧
    cv.value = base ++ '.' :: ['0'] := by
  have ht : (SpinParameters.mk i .NoPeriodicity NoEntropy).totalBits = 0 := rfl
  have hmask : (SpinParameters.mk i .NoPeriodicity NoEntropy).mask = 0 := by
    rw [mask_eq_of_le (by rw [ht]; omega), ht]
    norm_num
  have hm : maskedValue ⟨i, .NoPeriodicity, NoEntropy⟩ ticks entropy = 0 :=
    Nat.le_zero.mp (hmask ▸ maskedValue_le_mask ⟨i, .NoPeriodicity, NoEntropy⟩ ticks entropy)
  obtain ⟨version, hv, hcv⟩ := spin_ok_inv h
  refine ⟨ht, hmask, ?_⟩
  rw [hcv, hm]
  simp [newCorrelationVector, spinSuffix, itoa, toInt64, natToDigits, Nat.digitChar,
    SpinParameters.totalBits, NoEntropy]

/-- C10 witness: a concrete run with ticks 7 and a nonempty random state
still appends exactly `0`. -/
theorem spin_zero_segment_witness :
    (SpinParameters.mk .CoarseInterval .NoPeriodicity NoEntropy).totalBits = 0 ∧
    (SpinParameters.mk .CoarseInterval .NoPeriodicity NoEntropy).mask = 0 ∧
    (newCorrelationVector (['a'] ++ '.' :: spinSuffix
        ⟨.CoarseInterval, .NoPeriodicity, NoEntropy⟩
        (maskedValue ⟨.CoarseInterval, .NoPeriodicity, NoEntropy⟩ 7 [3])) 0 .v1).value =
      ['a'] ++ '.' :: ['0'] :=
  spin_zero_segment .CoarseInterval ⟨fun _ => .ok .v1, fun _ _ => none, false⟩ ['a'] 7 [3]
    (newCorrelationVector (['a'] ++ '.' :: spinSuffix
      ⟨.CoarseInterval, .NoPeriodicity, NoEntropy⟩
      (maskedValue ⟨.CoarseInterval, .NoPeriodicity, NoEntropy⟩ 7 [3])) 0 .v1) rfl

end CorrelationVector
